import Mathlib

/-!
Verification of the concurrency-primitive demos of the 15445-bootcamp
repository (`mutex.cpp`, `scoped_lock.cpp`, `condition_variable.cpp`,
`rwlock.cpp`) against its specification.

Each demo program is shallowly embedded as a small interleaving
transition system: a global state records the shared counter, the lock
state, and a program counter per thread; an inductive `Step` relation
gives one constructor per source statement a thread can execute, and
reachability is the reflexive-transitive closure of `Step` from the
initial state.  Non-atomic C++ statements (`count += 1`, `count += 3`)
are split into their load and store halves, so that the models can
express why the locks are needed.  Components whose implementation is
not part of the repository (the scoped-guard destructor semantics, the
writer-preference shared-exclusive lock, the MultiLock algorithm) are
modelled from the specification, and are marked as such.
-/

namespace Guard

/-- Combined state of the mutex `m` and the shared counter `count` of
`mutex.cpp` / `scoped_lock.cpp`: `locked` is the mutex state, `count`
the shared integer. -/
structure MSt where
  locked : Bool
  count : Nat
deriving DecidableEq, Repr

/-- A critical-section body: it receives the current value of `count`
and either returns the updated value or raises (models a C++ exception
thrown between acquisition and release). -/
def Body : Type := Nat → Except Unit Nat

/-- Modelled from the spec: the `std::scoped_lock` / LockGuard
semantics of §4.1, whose implementation is not part of the repository.
The guard acquires the mutex on construction and releases it on
destruction on every exit path: both when `body` returns normally and
when it raises, the mutex ends up free.  The boolean result records
whether a failure propagated out of the scope. -/
def withLockGuard (body : Body) (s : MSt) : MSt × Bool :=
  match body s.count with
  | Except.ok c => (⟨false, c⟩, false)
  | Except.error _ => (⟨false, s.count⟩, true)

/-- The manual `m.lock(); body; m.unlock();` pattern of `add_count` in
`mutex.cpp`: `m.unlock()` is only reached on the normal path, so when
`body` raises, the error propagates with the mutex still held. -/
def manualLockUnlock (body : Body) (s : MSt) : MSt × Bool :=
  match body s.count with
  | Except.ok c => (⟨false, c⟩, false)
  | Except.error _ => (⟨true, s.count⟩, true)

/-- The actual body of `add_count` in both files: `count += 1`, which
never raises. -/
def incrBody : Body := fun c => Except.ok (c + 1)

/-- `add_count` of `scoped_lock.cpp`: the increment under a scoped
guard. -/
def add_count_scoped (s : MSt) : MSt × Bool := withLockGuard incrBody s

/-- `add_count` of `mutex.cpp`: the increment under manual
lock/unlock. -/
def add_count_manual (s : MSt) : MSt × Bool := manualLockUnlock incrBody s

/-- C5: for every guard bound to a mutex, on every exit path from the
guard's scope — normal return or propagated failure — the underlying
mutex is released when the scope ends; in particular the mutex
acquired in `scoped_lock.cpp`'s `add_count` is free on every exit of
`add_count`. -/
theorem C5_guard_releases_on_every_exit :
    (∀ (body : Body) (s : MSt), ((withLockGuard body s).1).locked = false) ∧
    (∀ s : MSt, ((add_count_scoped s).1).locked = false) := by
  constructor
  · intro body s
    unfold withLockGuard
    cases body s.count <;> rfl
  · intro s
    unfold add_count_scoped withLockGuard
    cases incrBody s.count <;> rfl

/-- C8: in `mutex.cpp`'s `add_count` the mutex is released only on the
normal return path: if the body raises between `m.lock()` and
`m.unlock()`, the mutex remains held after the failure propagates,
while the normal path does release it. -/
theorem C8_manual_unlock_skipped_on_failure (body : Body) (s : MSt) :
    (∀ e, body s.count = Except.error e →
      ((manualLockUnlock body s).1).locked = true) ∧
    ((manualLockUnlock body s).2 = false →
      ((manualLockUnlock body s).1).locked = false) := by
  constructor
  · intro e he
    unfold manualLockUnlock
    rw [he]
  · intro hnorm
    unfold manualLockUnlock at hnorm ⊢
    cases h : body s.count with
    | ok c => rfl
    | error e => rw [h] at hnorm; simp at hnorm

/-- Witness for C8: a body that raises leaves the mutex of
`mutex.cpp` locked forever, and the never-raising source body
`count += 1` does release it. -/
theorem C8_manual_unlock_skipped_on_failure_witness :
    ((manualLockUnlock (fun _ => Except.error ()) ⟨false, 0⟩).1).locked = true ∧
    ((add_count_manual ⟨false, 0⟩).1).locked = false := by
  constructor
  · exact (C8_manual_unlock_skipped_on_failure (fun _ => Except.error ()) ⟨false, 0⟩).1 () rfl
  · exact (C8_manual_unlock_skipped_on_failure incrBody ⟨false, 0⟩).2 rfl

end Guard

namespace MutexDemo

/-- Program counter of one `add_count` worker thread of `mutex.cpp` /
`scoped_lock.cpp`.  The critical-section statement `count += 1` is not
atomic in C++, so it is split into its load and store halves;
`atLoad`, `atStore` and `atUnlock` are exactly the locations at which
the thread holds the mutex. -/
inductive Pc where
  | atLock
  | atLoad
  | atStore
  | atUnlock
  | done
deriving DecidableEq, Repr

/-- One worker thread: its location, the register holding the loaded
value of `count`, and the number of locked increments still to run. -/
structure Thread where
  pc : Pc
  reg : Nat
  todo : Nat
deriving DecidableEq, Repr

/-- Pointwise update of the thread map (`false` = t1, `true` = t2). -/
def updTh (f : Bool → Thread) (t : Bool) (v : Thread) : Bool → Thread :=
  fun u => if u = t then v else f u

/-- Global state: the shared counter, the mutex owner (`none` = free)
and the two worker threads. -/
structure St where
  count : Nat
  owner : Option Bool
  th : Bool → Thread

/-- One interleaving step.  `lock` blocks until the mutex is free,
`load`/`store` are the two halves of `count += 1` and run while the
mutex is held, `unlock` releases and either loops into the next
iteration or finishes. -/
inductive Step : St → St → Prop where
  | lock (s : St) (t : Bool) (hpc : (s.th t).pc = Pc.atLock) (hown : s.owner = none) :
      Step s ⟨s.count, some t, updTh s.th t ⟨Pc.atLoad, (s.th t).reg, (s.th t).todo⟩⟩
  | load (s : St) (t : Bool) (hpc : (s.th t).pc = Pc.atLoad) :
      Step s ⟨s.count, s.owner, updTh s.th t ⟨Pc.atStore, s.count, (s.th t).todo⟩⟩
  | store (s : St) (t : Bool) (hpc : (s.th t).pc = Pc.atStore) :
      Step s ⟨(s.th t).reg + 1, s.owner, updTh s.th t ⟨Pc.atUnlock, (s.th t).reg, (s.th t).todo⟩⟩
  | unlock (s : St) (t : Bool) (hpc : (s.th t).pc = Pc.atUnlock) :
      Step s ⟨s.count, none, updTh s.th t
        ⟨if (s.th t).todo - 1 = 0 then Pc.done else Pc.atLock, (s.th t).reg, (s.th t).todo - 1⟩⟩

/-- Reachability: zero or more interleaving steps. -/
def Reach (a b : St) : Prop := Relation.ReflTransGen Step a b

/-- Initial state for `n` locked increments per thread: counter `0`,
mutex free, both threads at their first `m.lock()`.  `n = 1` is the
source program; `n = 1000` is the end-to-end scenario of §8. -/
def init (n : Nat) : St :=
  ⟨0, none, fun _ => ⟨if n = 0 then Pc.done else Pc.atLock, 0, n⟩⟩

/-- Whether a location lies inside the critical section (mutex held). -/
def inCS : Pc → Bool
  | Pc.atLoad => true
  | Pc.atStore => true
  | Pc.atUnlock => true
  | _ => false

/-- Completed increments contributed by one thread so far. -/
def contrib (n : Nat) (t : Thread) : Nat :=
  (n - t.todo) + (if t.pc = Pc.atUnlock then 1 else 0)

/-- Inductive invariant of the two-thread program: a thread inside the
critical section owns the mutex; a thread about to store has loaded
the current counter; the counter equals the completed contributions;
and iteration bookkeeping. -/
def Inv (n : Nat) (s : St) : Prop :=
  (∀ t : Bool, inCS (s.th t).pc = true → s.owner = some t) ∧
  (∀ t : Bool, (s.th t).pc = Pc.atStore → (s.th t).reg = s.count) ∧
  s.count = contrib n (s.th false) + contrib n (s.th true) ∧
  (∀ t : Bool, (s.th t).todo ≤ n) ∧
  (∀ t : Bool, (s.th t).pc ≠ Pc.done → 1 ≤ (s.th t).todo) ∧
  (∀ t : Bool, (s.th t).pc = Pc.done → (s.th t).todo = 0)

theorem updTh_same (f : Bool → Thread) (t : Bool) (v : Thread) :
    updTh f t v t = v := by
  simp [updTh]

theorem updTh_other (f : Bool → Thread) (t : Bool) (v : Thread) (u : Bool)
    (h : u ≠ t) : updTh f t v u = f u := by
  simp [updTh, h]

theorem inv_init (n : Nat) : Inv n (init n) := by
  unfold Inv init contrib
  by_cases h : n = 0
  · simp [h, inCS]
  · simp [h, inCS]
    omega

theorem inv_step {n : Nat} {s s' : St} (hinv : Inv n s) (hstep : Step s s') :
    Inv n s' := by
  obtain ⟨h1, h2, h3, h4, h5, h6⟩ := hinv
  cases hstep with
  | lock t hpc hown =>
      refine ⟨?_, ?_, ?_, ?_, ?_, ?_⟩ <;> dsimp only
      · intro u hcs
        by_cases hu : u = t
        · subst hu; rfl
        · rw [updTh_other _ _ _ _ hu] at hcs
          have := h1 u hcs
          rw [hown] at this
          exact absurd this (by simp)
      · intro u hst
        exfalso
        by_cases hu : u = t
        · subst hu; rw [updTh_same] at hst; exact absurd hst (by simp)
        · rw [updTh_other _ _ _ _ hu] at hst
          have := h1 u (by simp [inCS, hst])
          rw [hown] at this
          exact absurd this (by simp)
      · have hv : contrib n (⟨Pc.atLoad, (s.th t).reg, (s.th t).todo⟩ : Thread) =
            contrib n (s.th t) := by
          simp [contrib, hpc]
        cases t
        · show s.count = _
          rw [updTh_same, updTh_other _ _ _ _ (by simp), hv, h3]
        · show s.count = _
          rw [updTh_same, updTh_other _ _ _ _ (by simp), hv, h3]
      · intro u
        by_cases hu : u = t
        · subst hu; rw [updTh_same]; exact h4 u
        · rw [updTh_other _ _ _ _ hu]; exact h4 u
      · intro u
        by_cases hu : u = t
        · subst hu; rw [updTh_same]; intro; exact h5 u (by simp [hpc])
        · rw [updTh_other _ _ _ _ hu]; exact h5 u
      · intro u
        by_cases hu : u = t
        · subst hu; rw [updTh_same]; intro h; exact absurd h (by simp)
        · rw [updTh_other _ _ _ _ hu]; exact h6 u
  | load t hpc =>
      have hownt : s.owner = some t := h1 t (by simp [inCS, hpc])
      refine ⟨?_, ?_, ?_, ?_, ?_, ?_⟩ <;> dsimp only
      · intro u hcs
        by_cases hu : u = t
        · subst hu; exact hownt
        · rw [updTh_other _ _ _ _ hu] at hcs
          exact h1 u hcs
      · intro u hst
        by_cases hu : u = t
        · subst hu; rw [updTh_same]
        · exfalso
          rw [updTh_other _ _ _ _ hu] at hst
          have := h1 u (by simp [inCS, hst])
          rw [hownt] at this
          exact hu (Option.some.inj this).symm
      · have hv : contrib n (⟨Pc.atStore, s.count, (s.th t).todo⟩ : Thread) =
            contrib n (s.th t) := by
          simp [contrib, hpc]
        cases t
        · show s.count = _
          rw [updTh_same, updTh_other _ _ _ _ (by simp), hv, h3]
        · show s.count = _
          rw [updTh_same, updTh_other _ _ _ _ (by simp), hv, h3]
      · intro u
        by_cases hu : u = t
        · subst hu; rw [updTh_same]; exact h4 u
        · rw [updTh_other _ _ _ _ hu]; exact h4 u
      · intro u
        by_cases hu : u = t
        · subst hu; rw [updTh_same]; intro; exact h5 u (by simp [hpc])
        · rw [updTh_other _ _ _ _ hu]; exact h5 u
      · intro u
        by_cases hu : u = t
        · subst hu; rw [updTh_same]; intro h; exact absurd h (by simp)
        · rw [updTh_other _ _ _ _ hu]; exact h6 u
  | store t hpc =>
      have hownt : s.owner = some t := h1 t (by simp [inCS, hpc])
      have hreg : (s.th t).reg = s.count := h2 t hpc
      refine ⟨?_, ?_, ?_, ?_, ?_, ?_⟩ <;> dsimp only
      · intro u hcs
        by_cases hu : u = t
        · subst hu; exact hownt
        · rw [updTh_other _ _ _ _ hu] at hcs
          exact h1 u hcs
      · intro u hst
        exfalso
        by_cases hu : u = t
        · subst hu; rw [updTh_same] at hst; exact absurd hst (by simp)
        · rw [updTh_other _ _ _ _ hu] at hst
          have := h1 u (by simp [inCS, hst])
          rw [hownt] at this
          exact hu (Option.some.inj this).symm
      · have hv : contrib n (⟨Pc.atUnlock, (s.th t).reg, (s.th t).todo⟩ : Thread) =
            contrib n (s.th t) + 1 := by
          simp [contrib, hpc]
        cases t
        · show (s.th false).reg + 1 = _
          rw [updTh_same, updTh_other _ _ _ _ (by simp), hv, hreg, h3]
          omega
        · show (s.th true).reg + 1 = _
          rw [updTh_same, updTh_other _ _ _ _ (by simp), hv, hreg, h3]
          omega
      · intro u
        by_cases hu : u = t
        · subst hu; rw [updTh_same]; exact h4 u
        · rw [updTh_other _ _ _ _ hu]; exact h4 u
      · intro u
        by_cases hu : u = t
        · subst hu; rw [updTh_same]; intro; exact h5 u (by simp [hpc])
        · rw [updTh_other _ _ _ _ hu]; exact h5 u
      · intro u
        by_cases hu : u = t
        · subst hu; rw [updTh_same]; intro h; exact absurd h (by simp)
        · rw [updTh_other _ _ _ _ hu]; exact h6 u
  | unlock t hpc =>
      have hownt : s.owner = some t := h1 t (by simp [inCS, hpc])
      have htodo : 1 ≤ (s.th t).todo := h5 t (by simp [hpc])
      refine ⟨?_, ?_, ?_, ?_, ?_, ?_⟩ <;> dsimp only
      · intro u hcs
        exfalso
        by_cases hu : u = t
        · subst hu
          rw [updTh_same] at hcs
          by_cases hz : (s.th u).todo - 1 = 0 <;> simp [hz, inCS] at hcs
        · rw [updTh_other _ _ _ _ hu] at hcs
          have := h1 u hcs
          rw [hownt] at this
          exact hu (Option.some.inj this).symm
      · intro u hst
        exfalso
        by_cases hu : u = t
        · subst hu
          rw [updTh_same] at hst
          by_cases hz : (s.th u).todo - 1 = 0 <;> simp [hz] at hst
        · rw [updTh_other _ _ _ _ hu] at hst
          have := h1 u (by simp [inCS, hst])
          rw [hownt] at this
          exact hu (Option.some.inj this).symm
      · have hv : contrib n
            (⟨if (s.th t).todo - 1 = 0 then Pc.done else Pc.atLock,
              (s.th t).reg, (s.th t).todo - 1⟩ : Thread) = contrib n (s.th t) := by
          have hle := h4 t
          by_cases hz : (s.th t).todo - 1 = 0 <;>
            simp [contrib, hz, hpc] <;> omega
        cases t
        · show s.count = _
          rw [updTh_same, updTh_other _ _ _ _ (by simp), hv, h3]
        · show s.count = _
          rw [updTh_same, updTh_other _ _ _ _ (by simp), hv, h3]
      · intro u
        by_cases hu : u = t
        · subst hu; rw [updTh_same]; dsimp only
          have := h4 u; omega
        · rw [updTh_other _ _ _ _ hu]; exact h4 u
      · intro u
        by_cases hu : u = t
        · subst hu; rw [updTh_same]; dsimp only
          intro hne
          by_cases hz : (s.th u).todo - 1 = 0
          · simp [hz] at hne
          · have := h5 u (by simp [hpc]); omega
        · rw [updTh_other _ _ _ _ hu]; exact h5 u
      · intro u
        by_cases hu : u = t
        · subst hu; rw [updTh_same]
          intro hdn
          by_cases hz : (s.th u).todo - 1 = 0
          · exact hz
          · simp [hz] at hdn
        · rw [updTh_other _ _ _ _ hu]; exact h6 u

theorem inv_reach {n : Nat} {s : St} (h : Reach (init n) s) : Inv n s := by
  induction h with
  | refl => exact inv_init n
  | tail _ hstep ih => exact inv_step ih hstep

theorem reach_of_eq {a b : St} (h : a = b) : Reach a b :=
  h ▸ Relation.ReflTransGen.refl

theorem updTh_collapse (f : Bool → Thread) (t : Bool) (v w : Thread) :
    updTh (updTh f t v) t w = updTh f t w := by
  funext u
  by_cases hu : u = t <;> simp [updTh, hu]

/-- One full `lock; load; store; unlock` iteration of a thread, as a
four-step execution fragment. -/
theorem reach_iter (s : St) (t : Bool) (hpc : (s.th t).pc = Pc.atLock)
    (hown : s.owner = none) :
    Reach s ⟨s.count + 1, none, updTh s.th t
      ⟨if (s.th t).todo - 1 = 0 then Pc.done else Pc.atLock,
       s.count, (s.th t).todo - 1⟩⟩ := by
  refine Relation.ReflTransGen.head (Step.lock s t hpc hown) ?_
  refine Relation.ReflTransGen.head (Step.load _ t (by simp [updTh])) ?_
  refine Relation.ReflTransGen.head (Step.store _ t (by simp [updTh])) ?_
  refine Relation.ReflTransGen.head (Step.unlock _ t (by simp [updTh])) ?_
  apply reach_of_eq
  congr 1
  · simp [updTh]
  · funext u
    by_cases hu : u = t <;> simp [updTh, hu]

/-- Running one thread through all of its remaining `k + 1` iterations
while the other thread stays put. -/
theorem reach_run (t : Bool) :
    ∀ (k : Nat) (s : St), (s.th t).pc = Pc.atLock → (s.th t).todo = k + 1 →
      s.owner = none →
      Reach s ⟨s.count + (k + 1), none, updTh s.th t ⟨Pc.done, s.count + k, 0⟩⟩ := by
  intro k
  induction k with
  | zero =>
      intro s hpc htodo hown
      have h := reach_iter s t hpc hown
      rw [htodo] at h
      simpa using h
  | succ k ih =>
      intro s hpc htodo hown
      have h := reach_iter s t hpc hown
      rw [htodo] at h
      simp only [Nat.add_sub_cancel, Nat.succ_ne_zero, if_false] at h
      have h2 := ih (⟨s.count + 1, none, updTh s.th t ⟨Pc.atLock, s.count, k + 1⟩⟩ : St)
        (by simp [updTh]) (by simp [updTh]) rfl
      refine (h.trans h2).trans (reach_of_eq ?_)
      congr 1
      · dsimp only; omega
      · dsimp only
        rw [updTh_collapse, show s.count + 1 + k = s.count + (k + 1) from by omega]

/-- A complete execution of the program with `k + 1` iterations per
thread: thread t1 runs to completion, then thread t2. -/
theorem reach_both (k : Nat) :
    ∃ s : St, Reach (init (k + 1)) s ∧ (s.th false).pc = Pc.done ∧
      (s.th true).pc = Pc.done := by
  have h1 := reach_run false k (init (k + 1)) (by simp [init]) (by simp [init]) rfl
  have h2 := reach_run true k
    (⟨(init (k + 1)).count + (k + 1), none,
      updTh (init (k + 1)).th false ⟨Pc.done, (init (k + 1)).count + k, 0⟩⟩ : St)
    (by simp [updTh, init]) (by simp [updTh, init]) rfl
  refine ⟨_, h1.trans h2, ?_, ?_⟩ <;> simp [updTh]

/-- C1: for the two `add_count` threads of `mutex.cpp` /
`scoped_lock.cpp`, the critical sections never overlap: in no
reachable state are both threads inside the locked region at once. -/
theorem C1_mutual_exclusion (n : Nat) (s : St) (h : Reach (init n) s) :
    ¬(inCS (s.th false).pc = true ∧ inCS (s.th true).pc = true) := by
  rintro ⟨hf, ht⟩
  obtain ⟨h1, -, -, -, -, -⟩ := inv_reach h
  have e1 := h1 false hf
  have e2 := h1 true ht
  rw [e1] at e2
  exact absurd (Option.some.inj e2) (by simp)

/-- Witness for C1 at the initial state of the source program
(`n = 1`). -/
theorem C1_mutual_exclusion_witness :
    ¬(inCS ((init 1).th false).pc = true ∧ inCS ((init 1).th true).pc = true) :=
  C1_mutual_exclusion 1 (init 1) Relation.ReflTransGen.refl

/-- C2: in the end-to-end scenario of §8 — two threads each performing
1000 increments of the shared counter under the mutex — every
execution in which both threads have finished ends with
`count = 2000`. -/
theorem C2_final_count_2000 (s : St) (h : Reach (init 1000) s)
    (hf : (s.th false).pc = Pc.done) (ht : (s.th true).pc = Pc.done) :
    s.count = 2000 := by
  obtain ⟨-, -, h3, -, -, h6⟩ := inv_reach h
  have tf := h6 false hf
  have tt := h6 true ht
  rw [h3]
  simp [contrib, tf, tt, hf, ht]

/-- Witness for C2: a concrete complete execution of the 1000-iteration
scenario reaches a terminal state whose counter is exactly 2000. -/
theorem C2_final_count_2000_witness :
    ∃ s : St, Reach (init 1000) s ∧ s.count = 2000 := by
  have h := reach_both 999
  rw [show (999 : Nat) + 1 = 1000 from rfl] at h
  obtain ⟨s, hs, hf, ht⟩ := h
  exact ⟨s, hs, C2_final_count_2000 s hs hf ht⟩

end MutexDemo

namespace CondVar

/-- Thread identifiers for `condition_variable.cpp`: the two
`add_count_and_notify` threads (`inc false`, `inc true`) and the
waiter thread. -/
inductive TId where
  | inc (t : Bool)
  | wtr
deriving DecidableEq, Repr

/-- Program counter of an `add_count_and_notify` thread:
`scoped_lock slk(m); count += 1; if (count == 2) cv.notify_one();`
with the scope-exit release as the final statement. -/
inductive IPc where
  | atLock
  | atIncr
  | atCheck
  | atUnlock
  | done
deriving DecidableEq, Repr

/-- Program counter of `waiter_thread`.  `cv.wait(lk, pred)` is
expanded into its internal loop: `wCheck` evaluates the predicate
while holding the mutex; if false, the thread atomically releases the
mutex and blocks (`wBlocked`); upon being woken — by `notify_one` or
spuriously — it re-acquires the mutex (`wRelock`) and re-checks.
`wPrint` is the print statement after `wait` returns, still under the
lock, released at scope exit (`wUnlock`). -/
inductive WPc where
  | wLock
  | wCheck
  | wBlocked
  | wRelock
  | wPrint
  | wUnlock
  | wDone
deriving DecidableEq, Repr

/-- Pointwise update of the incrementer-thread map. -/
def updInc (f : Bool → IPc) (t : Bool) (v : IPc) : Bool → IPc :=
  fun u => if u = t then v else f u

/-- Global state of `condition_variable.cpp`: the shared counter, the
mutex owner, the two incrementer threads, the waiter, and the value
printed by the waiter (if any). -/
structure St where
  count : Nat
  owner : Option TId
  inc : Bool → IPc
  w : WPc
  printed : Option Nat

/-- One interleaving step of the three-thread program.  `iCheck`
performs `if (count == 2) cv.notify_one()`: when the condition holds
and the waiter is blocked, the waiter is moved to its re-acquire
location; notifying with no blocked waiter is a no-op.  `wWake` wakes
a blocked waiter at any time, covering spurious wake-ups. -/
inductive Step : St → St → Prop where
  | iLock (s : St) (t : Bool) (hpc : s.inc t = IPc.atLock) (hown : s.owner = none) :
      Step s ⟨s.count, some (TId.inc t), updInc s.inc t IPc.atIncr, s.w, s.printed⟩
  | iIncr (s : St) (t : Bool) (hpc : s.inc t = IPc.atIncr) :
      Step s ⟨s.count + 1, s.owner, updInc s.inc t IPc.atCheck, s.w, s.printed⟩
  | iCheck (s : St) (t : Bool) (hpc : s.inc t = IPc.atCheck) :
      Step s ⟨s.count, s.owner, updInc s.inc t IPc.atUnlock,
        if s.count = 2 ∧ s.w = WPc.wBlocked then WPc.wRelock else s.w, s.printed⟩
  | iUnlock (s : St) (t : Bool) (hpc : s.inc t = IPc.atUnlock) :
      Step s ⟨s.count, none, updInc s.inc t IPc.done, s.w, s.printed⟩
  | wLock (s : St) (hpc : s.w = WPc.wLock) (hown : s.owner = none) :
      Step s ⟨s.count, some TId.wtr, s.inc, WPc.wCheck, s.printed⟩
  | wCheckTrue (s : St) (hpc : s.w = WPc.wCheck) (hc : s.count = 2) :
      Step s ⟨s.count, s.owner, s.inc, WPc.wPrint, s.printed⟩
  | wCheckFalse (s : St) (hpc : s.w = WPc.wCheck) (hc : s.count ≠ 2) :
      Step s ⟨s.count, none, s.inc, WPc.wBlocked, s.printed⟩
  | wWake (s : St) (hpc : s.w = WPc.wBlocked) :
      Step s ⟨s.count, s.owner, s.inc, WPc.wRelock, s.printed⟩
  | wRelock (s : St) (hpc : s.w = WPc.wRelock) (hown : s.owner = none) :
      Step s ⟨s.count, some TId.wtr, s.inc, WPc.wCheck, s.printed⟩
  | wPrint (s : St) (hpc : s.w = WPc.wPrint) :
      Step s ⟨s.count, s.owner, s.inc, WPc.wUnlock, some s.count⟩
  | wUnlock (s : St) (hpc : s.w = WPc.wUnlock) :
      Step s ⟨s.count, none, s.inc, WPc.wDone, s.printed⟩

/-- Reachability. -/
def Reach (a b : St) : Prop := Relation.ReflTransGen Step a b

/-- Initial state: counter `0`, mutex free, all three threads at their
starting locations, nothing printed. -/
def init : St := ⟨0, none, fun _ => IPc.atLock, WPc.wLock, none⟩

/-- Whether an incrementer location holds the mutex. -/
def iHolds : IPc → Bool
  | IPc.atIncr => true
  | IPc.atCheck => true
  | IPc.atUnlock => true
  | _ => false

/-- Whether a waiter location holds the mutex. -/
def wHolds : WPc → Bool
  | WPc.wCheck => true
  | WPc.wPrint => true
  | WPc.wUnlock => true
  | _ => false

/-- Whether the waiter has returned from `cv.wait`. -/
def pastWait : WPc → Bool
  | WPc.wPrint => true
  | WPc.wUnlock => true
  | WPc.wDone => true
  | _ => false

/-- Increments already performed by an incrementer at this location. -/
def iCount : IPc → Nat
  | IPc.atLock => 0
  | IPc.atIncr => 0
  | _ => 1

theorem updInc_same (f : Bool → IPc) (t : Bool) (v : IPc) :
    updInc f t v t = v := by
  simp [updInc]

theorem updInc_other (f : Bool → IPc) (t : Bool) (v : IPc) (u : Bool)
    (h : u ≠ t) : updInc f t v u = f u := by
  simp [updInc, h]

theorem iCount_le_one (p : IPc) : iCount p ≤ 1 := by
  cases p <;> simp [iCount]

/-- Inductive invariant of `condition_variable.cpp`: mutex ownership
matches the per-thread locations; the counter counts the performed
increments; the waiter is past `cv.wait` only with `count = 2`; the
printed value can only be `2`; and a blocked waiter always has a
pending increment or a pending notification. -/
def Inv (s : St) : Prop :=
  (∀ t : Bool, iHolds (s.inc t) = true → s.owner = some (TId.inc t)) ∧
  (wHolds s.w = true → s.owner = some TId.wtr) ∧
  s.count = iCount (s.inc false) + iCount (s.inc true) ∧
  (pastWait s.w = true → s.count = 2) ∧
  (∀ v, s.printed = some v → v = 2) ∧
  (s.w = WPc.wBlocked → s.count ≠ 2 ∨ ∃ t, s.inc t = IPc.atCheck) ∧
  (s.owner = some TId.wtr → wHolds s.w = true) ∧
  (∀ t : Bool, s.owner = some (TId.inc t) → iHolds (s.inc t) = true)

theorem cvInv_init : Inv init := by
  unfold Inv init
  refine ⟨?_, ?_, ?_, ?_, ?_, ?_, ?_, ?_⟩ <;> simp [iHolds, wHolds, pastWait, iCount]

theorem cvInv_step {s s2 : St} (hinv : Inv s) (hstep : Step s s2) : Inv s2 := by
  obtain ⟨h1, h2, h3, h4, h5, h6, h7, h8⟩ := hinv
  cases hstep with
  | iLock t hpc hown =>
      refine ⟨?_, ?_, ?_, ?_, ?_, ?_, ?_, ?_⟩ <;> dsimp only
      · intro u hu
        by_cases hut : u = t
        · subst hut; rfl
        · rw [updInc_other _ _ _ _ hut] at hu
          rw [h1 u hu] at hown
          exact absurd hown (by simp)
      · intro hw
        rw [h2 hw] at hown
        exact absurd hown (by simp)
      · cases t <;> (rw [hpc] at h3; simpa [updInc, iCount] using h3)
      · exact h4
      · exact h5
      · intro hb
        rcases h6 hb with hc | ⟨u, hu⟩
        · exact Or.inl hc
        · refine Or.inr ⟨u, ?_⟩
          have hne : u ≠ t := by
            intro he; rw [he, hpc] at hu; exact absurd hu (by simp)
          rw [updInc_other _ _ _ _ hne]; exact hu
      · intro ho; exact absurd ho (by simp)
      · intro u hu
        have : t = u := by simpa using hu
        subst this
        rw [updInc_same]; rfl
  | iIncr t hpc =>
      refine ⟨?_, ?_, ?_, ?_, ?_, ?_, ?_, ?_⟩ <;> dsimp only
      · intro u hu
        by_cases hut : u = t
        · subst hut; exact h1 u (by simp [iHolds, hpc])
        · rw [updInc_other _ _ _ _ hut] at hu; exact h1 u hu
      · exact h2
      · cases t <;>
          (rw [hpc] at h3; simp [updInc, iCount] at h3 ⊢; omega)
      · intro hp
        exfalso
        have hc2 := h4 hp
        have h0 : iCount IPc.atIncr = 0 := rfl
        cases t <;> rw [hpc, h0] at h3
        · have := iCount_le_one (s.inc true)
          omega
        · have := iCount_le_one (s.inc false)
          omega
      · exact h5
      · intro hb
        exact Or.inr ⟨t, updInc_same _ _ _⟩
      · exact h7
      · intro u hu
        by_cases hut : u = t
        · subst hut; rw [updInc_same]; rfl
        · rw [updInc_other _ _ _ _ hut]; exact h8 u hu
  | iCheck t hpc =>
      refine ⟨?_, ?_, ?_, ?_, ?_, ?_, ?_, ?_⟩ <;> dsimp only
      · intro u hu
        by_cases hut : u = t
        · subst hut; exact h1 u (by simp [iHolds, hpc])
        · rw [updInc_other _ _ _ _ hut] at hu; exact h1 u hu
      · intro hw
        by_cases hcond : s.count = 2 ∧ s.w = WPc.wBlocked
        · rw [if_pos hcond] at hw; exact absurd hw (by simp [wHolds])
        · rw [if_neg hcond] at hw; exact h2 hw
      · cases t <;> (rw [hpc] at h3; simpa [updInc, iCount] using h3)
      · intro hp
        by_cases hcond : s.count = 2 ∧ s.w = WPc.wBlocked
        · rw [if_pos hcond] at hp; exact absurd hp (by simp [pastWait])
        · rw [if_neg hcond] at hp; exact h4 hp
      · exact h5
      · intro hb
        by_cases hcond : s.count = 2 ∧ s.w = WPc.wBlocked
        · rw [if_pos hcond] at hb; exact absurd hb (by simp)
        · rw [if_neg hcond] at hb
          refine Or.inl ?_
          intro hc2
          exact hcond ⟨hc2, hb⟩
      · intro ho
        have hw := h7 ho
        by_cases hcond : s.count = 2 ∧ s.w = WPc.wBlocked
        · rw [hcond.2] at hw; exact absurd hw (by simp [wHolds])
        · rw [if_neg hcond]; exact hw
      · intro u hu
        by_cases hut : u = t
        · subst hut; rw [updInc_same]; rfl
        · rw [updInc_other _ _ _ _ hut]; exact h8 u hu
  | iUnlock t hpc =>
      have hownt : s.owner = some (TId.inc t) := h1 t (by simp [iHolds, hpc])
      refine ⟨?_, ?_, ?_, ?_, ?_, ?_, ?_, ?_⟩ <;> dsimp only
      · intro u hu
        exfalso
        by_cases hut : u = t
        · subst hut; rw [updInc_same] at hu; exact absurd hu (by simp [iHolds])
        · rw [updInc_other _ _ _ _ hut] at hu
          have := h1 u hu
          rw [hownt] at this
          have : t = u := by simpa using this
          exact hut this.symm
      · intro hw
        exfalso
        have := h2 hw
        rw [hownt] at this
        exact absurd this (by simp)
      · cases t <;> (rw [hpc] at h3; simpa [updInc, iCount] using h3)
      · exact h4
      · exact h5
      · intro hb
        rcases h6 hb with hc | ⟨u, hu⟩
        · exact Or.inl hc
        · refine Or.inr ⟨u, ?_⟩
          have hne : u ≠ t := by
            intro he; rw [he, hpc] at hu; exact absurd hu (by simp)
          rw [updInc_other _ _ _ _ hne]; exact hu
      · intro ho; exact absurd ho (by simp)
      · intro u hu; exact absurd hu (by simp)
  | wLock hpc hown =>
      refine ⟨?_, ?_, ?_, ?_, ?_, ?_, ?_, ?_⟩ <;> dsimp only
      · intro u hu
        rw [h1 u hu] at hown
        exact absurd hown (by simp)
      · intro; rfl
      · exact h3
      · intro hp; exact absurd hp (by simp [pastWait])
      · exact h5
      · intro hb; exact absurd hb (by simp)
      · intro; rfl
      · intro u hu; exact absurd hu (by simp)
  | wCheckTrue hpc hc =>
      refine ⟨?_, ?_, ?_, ?_, ?_, ?_, ?_, ?_⟩ <;> dsimp only
      · exact h1
      · intro; exact h2 (by simp [wHolds, hpc])
      · exact h3
      · intro; exact hc
      · exact h5
      · intro hb; exact absurd hb (by simp)
      · intro; rfl
      · exact h8
  | wCheckFalse hpc hc =>
      refine ⟨?_, ?_, ?_, ?_, ?_, ?_, ?_, ?_⟩ <;> dsimp only
      · intro u hu
        exfalso
        have := h1 u hu
        rw [h2 (by simp [wHolds, hpc])] at this
        exact absurd this (by simp)
      · intro hw; exact absurd hw (by simp [wHolds])
      · exact h3
      · intro hp; exact absurd hp (by simp [pastWait])
      · exact h5
      · intro; exact Or.inl hc
      · intro ho; exact absurd ho (by simp)
      · intro u hu; exact absurd hu (by simp)
  | wWake hpc =>
      refine ⟨?_, ?_, ?_, ?_, ?_, ?_, ?_, ?_⟩ <;> dsimp only
      · exact h1
      · intro hw; exact absurd hw (by simp [wHolds])
      · exact h3
      · intro hp; exact absurd hp (by simp [pastWait])
      · exact h5
      · intro hb; exact absurd hb (by simp)
      · intro ho
        have := h7 ho
        rw [hpc] at this
        exact absurd this (by simp [wHolds])
      · exact h8
  | wRelock hpc hown =>
      refine ⟨?_, ?_, ?_, ?_, ?_, ?_, ?_, ?_⟩ <;> dsimp only
      · intro u hu
        rw [h1 u hu] at hown
        exact absurd hown (by simp)
      · intro; rfl
      · exact h3
      · intro hp; exact absurd hp (by simp [pastWait])
      · exact h5
      · intro hb; exact absurd hb (by simp)
      · intro; rfl
      · intro u hu; exact absurd hu (by simp)
  | wPrint hpc =>
      have hc2 : s.count = 2 := h4 (by simp [pastWait, hpc])
      refine ⟨?_, ?_, ?_, ?_, ?_, ?_, ?_, ?_⟩ <;> dsimp only
      · exact h1
      · intro; exact h2 (by simp [wHolds, hpc])
      · exact h3
      · intro; exact hc2
      · intro v hv
        have : s.count = v := by simpa using hv
        rw [← this]; exact hc2
      · intro hb; exact absurd hb (by simp)
      · intro; rfl
      · exact h8
  | wUnlock hpc =>
      refine ⟨?_, ?_, ?_, ?_, ?_, ?_, ?_, ?_⟩ <;> dsimp only
      · intro u hu
        exfalso
        have := h1 u hu
        rw [h2 (by simp [wHolds, hpc])] at this
        exact absurd this (by simp)
      · intro hw; exact absurd hw (by simp [wHolds])
      · exact h3
      · intro; exact h4 (by simp [pastWait, hpc])
      · exact h5
      · intro hb; exact absurd hb (by simp)
      · intro ho; exact absurd ho (by simp)
      · intro u hu; exact absurd hu (by simp)

theorem cvInv_reach {s : St} (h : Reach init s) : Inv s := by
  induction h with
  | refl => exact cvInv_init
  | tail _ hstep ih => exact cvInv_step ih hstep

theorem iHolds_cases {p : IPc} (h : iHolds p = true) :
    p = IPc.atIncr ∨ p = IPc.atCheck ∨ p = IPc.atUnlock := by
  cases p <;> simp_all [iHolds]

/-- C3: `cv.wait(lk, pred)` returns only when the predicate holds
while the mutex is held: in every reachable state, a waiter that has
returned from `wait` sees `count = 2` (never `count < 2`), at the
return point it owns the mutex, the printed value can only be `2`,
and when the waiter re-checks with `count = 2` the returning
transition is enabled. -/
theorem C3_wait_returns_only_with_predicate (s : St) (h : Reach init s) :
    (s.w = WPc.wPrint → s.count = 2 ∧ s.owner = some TId.wtr) ∧
    (pastWait s.w = true → s.count = 2) ∧
    (∀ v, s.printed = some v → v = 2) ∧
    (s.w = WPc.wCheck → s.count = 2 →
      Step s ⟨s.count, s.owner, s.inc, WPc.wPrint, s.printed⟩) := by
  obtain ⟨h1, h2, h3, h4, h5, h6, h7, h8⟩ := cvInv_reach h
  refine ⟨?_, h4, h5, ?_⟩
  · intro hw
    exact ⟨h4 (by simp [pastWait, hw]), h2 (by simp [wHolds, hw])⟩
  · intro hw hc
    exact Step.wCheckTrue s hw hc

/-- C10: the waiter cannot block forever on an already-consumed
notification: whenever it is blocked some incrementer is still
unfinished; every reachable state with an unfinished waiter has an
enabled step (no deadlock); a waiter that checks the predicate when
`count = 2` returns immediately — no step can put it into the blocked
state; and the program can only print `2`. -/
theorem C10_waiter_never_stuck (s : St) (h : Reach init s) :
    (s.w = WPc.wBlocked → ∃ t, s.inc t ≠ IPc.done) ∧
    (s.w ≠ WPc.wDone → ∃ s2, Step s s2) ∧
    (s.w = WPc.wCheck → s.count = 2 → ∀ s2, Step s s2 → s2.w ≠ WPc.wBlocked) ∧
    (∀ v, s.printed = some v → v = 2) := by
  obtain ⟨h1, h2, h3, h4, h5, h6, h7, h8⟩ := cvInv_reach h
  refine ⟨?_, ?_, ?_, h5⟩
  · intro hb
    rcases h6 hb with hc | ⟨t, ht⟩
    · by_cases hf : s.inc false = IPc.done
      · refine ⟨true, ?_⟩
        intro htr
        rw [hf, htr] at h3
        exact hc (h3.trans rfl)
      · exact ⟨false, hf⟩
    · exact ⟨t, by rw [ht]; simp⟩
  · intro hnd
    cases hw : s.w with
    | wLock =>
        cases ho : s.owner with
        | none => exact ⟨_, Step.wLock s hw ho⟩
        | some tid =>
            cases tid with
            | wtr => exact absurd (h7 ho) (by simp [hw, wHolds])
            | inc t =>
                rcases iHolds_cases (h8 t ho) with hp | hp | hp
                · exact ⟨_, Step.iIncr s t hp⟩
                · exact ⟨_, Step.iCheck s t hp⟩
                · exact ⟨_, Step.iUnlock s t hp⟩
    | wCheck =>
        by_cases hc : s.count = 2
        · exact ⟨_, Step.wCheckTrue s hw hc⟩
        · exact ⟨_, Step.wCheckFalse s hw hc⟩
    | wBlocked => exact ⟨_, Step.wWake s hw⟩
    | wRelock =>
        cases ho : s.owner with
        | none => exact ⟨_, Step.wRelock s hw ho⟩
        | some tid =>
            cases tid with
            | wtr => exact absurd (h7 ho) (by simp [hw, wHolds])
            | inc t =>
                rcases iHolds_cases (h8 t ho) with hp | hp | hp
                · exact ⟨_, Step.iIncr s t hp⟩
                · exact ⟨_, Step.iCheck s t hp⟩
                · exact ⟨_, Step.iUnlock s t hp⟩
    | wPrint => exact ⟨_, Step.wPrint s hw⟩
    | wUnlock => exact ⟨_, Step.wUnlock s hw⟩
    | wDone => exact absurd hw hnd
  · intro hw hc s2 hstep
    cases hstep <;> simp_all [wHolds]

/-- The terminal state of the complete run used as witness: both
increments performed, all threads finished, the value `2` printed. -/
def runEnd : St := ⟨2, none, fun _ => IPc.done, WPc.wDone, some 2⟩

theorem cvReach_of_eq {a b : St} (h : a = b) : Reach a b :=
  h ▸ Relation.ReflTransGen.refl

/-- A complete concrete execution of `condition_variable.cpp`:
incrementer t1, then incrementer t2, then the waiter (which finds the
predicate already true and returns without blocking). -/
theorem reach_runEnd : Reach init runEnd := by
  refine Relation.ReflTransGen.head (Step.iLock init false rfl rfl) ?_
  refine Relation.ReflTransGen.head (Step.iIncr _ false rfl) ?_
  refine Relation.ReflTransGen.head (Step.iCheck _ false rfl) ?_
  refine Relation.ReflTransGen.head (Step.iUnlock _ false rfl) ?_
  refine Relation.ReflTransGen.head (Step.iLock _ true rfl rfl) ?_
  refine Relation.ReflTransGen.head (Step.iIncr _ true rfl) ?_
  refine Relation.ReflTransGen.head (Step.iCheck _ true rfl) ?_
  refine Relation.ReflTransGen.head (Step.iUnlock _ true rfl) ?_
  refine Relation.ReflTransGen.head (Step.wLock _ rfl rfl) ?_
  refine Relation.ReflTransGen.head (Step.wCheckTrue _ rfl rfl) ?_
  refine Relation.ReflTransGen.head (Step.wPrint _ rfl) ?_
  refine Relation.ReflTransGen.head (Step.wUnlock _ rfl) ?_
  apply cvReach_of_eq
  unfold runEnd
  congr 1
  funext u
  cases u <;> rfl

/-- Witness for C3: applied to the terminal state of the concrete
run, where the waiter is past `wait`, giving `count = 2`. -/
theorem C3_wait_returns_only_with_predicate_witness : runEnd.count = 2 :=
  (C3_wait_returns_only_with_predicate runEnd reach_runEnd).2.1 (by rfl)

/-- Witness for C10: applied to the initial state, whose waiter is
unfinished, giving an enabled step. -/
theorem C10_waiter_never_stuck_witness : ∃ s2, Step init s2 :=
  (C10_waiter_never_stuck init Relation.ReflTransGen.refl).2.1 (by simp [init])

end CondVar

namespace RwDemo

/-- Program counter of a `read_value` thread of `rwlock.cpp`:
acquire the shared lock, read `count`, release at scope exit. -/
inductive RPc where
  | rLock
  | rRead
  | rUnlock
  | rDone
deriving DecidableEq, Repr

/-- Program counter of a `write_value` thread.  The exclusive-section
statement `count += 3` is split into its load and store halves. -/
inductive WrPc where
  | wLock
  | wLoad
  | wStore
  | wUnlock
  | wDone
deriving DecidableEq, Repr

/-- A reader thread: its location and the value it read (if any). -/
structure RThread where
  pc : RPc
  obs : Option Nat
deriving DecidableEq, Repr

/-- A writer thread: its location and the register holding the loaded
value of `count`. -/
structure WThread where
  pc : WrPc
  reg : Nat
deriving DecidableEq, Repr

def updRd (f : Fin 4 → RThread) (i : Fin 4) (v : RThread) : Fin 4 → RThread :=
  fun k => if k = i then v else f k

def updWr (g : Fin 2 → WThread) (j : Fin 2) (v : WThread) : Fin 2 → WThread :=
  fun k => if k = j then v else g k

/-- Global state of `rwlock.cpp`: the shared counter, the
`std::shared_mutex` state (`readers` = number of shared holders,
`writer` = exclusive holder present), the four `read_value` threads
and the two `write_value` threads. -/
structure St where
  count : Nat
  readers : Nat
  writer : Bool
  rd : Fin 4 → RThread
  wr : Fin 2 → WThread

/-- One interleaving step of the six-thread program.  A shared
acquisition needs no exclusive holder; an exclusive acquisition needs
no holder at all. -/
inductive Step : St → St → Prop where
  | rAcquire (s : St) (i : Fin 4) (hpc : (s.rd i).pc = RPc.rLock)
      (hw : s.writer = false) :
      Step s ⟨s.count, s.readers + 1, s.writer,
        updRd s.rd i ⟨RPc.rRead, (s.rd i).obs⟩, s.wr⟩
  | rObserve (s : St) (i : Fin 4) (hpc : (s.rd i).pc = RPc.rRead) :
      Step s ⟨s.count, s.readers, s.writer,
        updRd s.rd i ⟨RPc.rUnlock, some s.count⟩, s.wr⟩
  | rRelease (s : St) (i : Fin 4) (hpc : (s.rd i).pc = RPc.rUnlock) :
      Step s ⟨s.count, s.readers - 1, s.writer,
        updRd s.rd i ⟨RPc.rDone, (s.rd i).obs⟩, s.wr⟩
  | wAcquire (s : St) (j : Fin 2) (hpc : (s.wr j).pc = WrPc.wLock)
      (hw : s.writer = false) (hr : s.readers = 0) :
      Step s ⟨s.count, s.readers, true, s.rd,
        updWr s.wr j ⟨WrPc.wLoad, (s.wr j).reg⟩⟩
  | wLoad (s : St) (j : Fin 2) (hpc : (s.wr j).pc = WrPc.wLoad) :
      Step s ⟨s.count, s.readers, s.writer, s.rd,
        updWr s.wr j ⟨WrPc.wStore, s.count⟩⟩
  | wStore (s : St) (j : Fin 2) (hpc : (s.wr j).pc = WrPc.wStore) :
      Step s ⟨(s.wr j).reg + 3, s.readers, s.writer, s.rd,
        updWr s.wr j ⟨WrPc.wUnlock, (s.wr j).reg⟩⟩
  | wRelease (s : St) (j : Fin 2) (hpc : (s.wr j).pc = WrPc.wUnlock) :
      Step s ⟨s.count, s.readers, false, s.rd,
        updWr s.wr j ⟨WrPc.wDone, (s.wr j).reg⟩⟩

/-- Reachability. -/
def Reach (a b : St) : Prop := Relation.ReflTransGen Step a b

/-- Initial state: counter `0`, lock free, four readers and two
writers at their acquisition points. -/
def init : St :=
  ⟨0, 0, false, fun _ => ⟨RPc.rLock, none⟩, fun _ => ⟨WrPc.wLock, 0⟩⟩

/-- Whether a reader location holds the shared lock. -/
def rIn : RPc → Bool
  | RPc.rRead => true
  | RPc.rUnlock => true
  | _ => false

/-- Whether a writer location holds the exclusive lock. -/
def wIn : WrPc → Bool
  | WrPc.wLoad => true
  | WrPc.wStore => true
  | WrPc.wUnlock => true
  | _ => false

/-- Completed `count += 3` contributions of a writer location. -/
def wContrib : WrPc → Nat
  | WrPc.wUnlock => 3
  | WrPc.wDone => 3
  | _ => 0

/-- Number of reader threads currently holding the shared lock. -/
def nReading (f : Fin 4 → RThread) : Nat :=
  (if rIn (f 0).pc then 1 else 0) + (if rIn (f 1).pc then 1 else 0) +
  (if rIn (f 2).pc then 1 else 0) + (if rIn (f 3).pc then 1 else 0)

theorem updRd_same (f : Fin 4 → RThread) (i : Fin 4) (v : RThread) :
    updRd f i v i = v := by
  simp [updRd]

theorem updRd_other (f : Fin 4 → RThread) (i : Fin 4) (v : RThread)
    (k : Fin 4) (h : k ≠ i) : updRd f i v k = f k := by
  simp [updRd, h]

theorem updWr_same (g : Fin 2 → WThread) (j : Fin 2) (v : WThread) :
    updWr g j v j = v := by
  simp [updWr]

theorem updWr_other (g : Fin 2 → WThread) (j : Fin 2) (v : WThread)
    (k : Fin 2) (h : k ≠ j) : updWr g j v k = g k := by
  simp [updWr, h]

theorem nReading_upd (f : Fin 4 → RThread) (i : Fin 4) (v : RThread) :
    nReading (updRd f i v) + (if rIn (f i).pc then 1 else 0) =
    nReading f + (if rIn v.pc then 1 else 0) := by
  fin_cases i <;> simp [nReading, updRd] <;> split_ifs <;> omega

theorem nReading_pos (f : Fin 4 → RThread) (i : Fin 4)
    (h : rIn (f i).pc = true) : 1 ≤ nReading f := by
  fin_cases i <;> simp_all [nReading] <;> split_ifs <;> omega

theorem wContrib_cases (p : WrPc) : wContrib p = 0 ∨ wContrib p = 3 := by
  cases p <;> simp [wContrib]

/-- Inductive invariant of `rwlock.cpp`: the lock's reader count
matches the reader locations; an exclusive holder excludes shared
holders; at most one writer is in its exclusive section and the
`writer` flag reflects it; a writer about to store has loaded the
current counter; the counter equals the completed contributions; and
every recorded observation is one of 0, 3, 6. -/
def Inv (s : St) : Prop :=
  s.readers = nReading s.rd ∧
  (s.writer = true → s.readers = 0) ∧
  (∀ j : Fin 2, wIn (s.wr j).pc = true → s.writer = true) ∧
  ¬(wIn (s.wr 0).pc = true ∧ wIn (s.wr 1).pc = true) ∧
  (∀ j : Fin 2, (s.wr j).pc = WrPc.wStore → (s.wr j).reg = s.count) ∧
  s.count = wContrib (s.wr 0).pc + wContrib (s.wr 1).pc ∧
  (∀ i : Fin 4, ∀ v, (s.rd i).obs = some v → v = 0 ∨ v = 3 ∨ v = 6)

theorem rwInv_init : Inv init := by
  unfold Inv init
  refine ⟨?_, ?_, ?_, ?_, ?_, ?_, ?_⟩ <;> simp [nReading, rIn, wIn, wContrib]

theorem updWr_pc_sum (g : Fin 2 → WThread) (j : Fin 2) (v : WThread) :
    wContrib (updWr g j v 0).pc + wContrib (updWr g j v 1).pc + wContrib (g j).pc =
    wContrib (g 0).pc + wContrib (g 1).pc + wContrib v.pc := by
  fin_cases j <;> simp [updWr] <;> omega

theorem updWr_pair (g : Fin 2 → WThread) (j : Fin 2) (v : WThread) :
    (updWr g j v 0 = v ∧ updWr g j v 1 = g 1 ∧ j = 0) ∨
    (updWr g j v 0 = g 0 ∧ updWr g j v 1 = v ∧ j = 1) := by
  fin_cases j
  · exact Or.inl ⟨by simp [updWr], by simp [updWr], rfl⟩
  · exact Or.inr ⟨by simp [updWr], by simp [updWr], rfl⟩

theorem fin2_split (k j : Fin 2) (h : k ≠ j) :
    (k = 0 ∧ j = 1) ∨ (k = 1 ∧ j = 0) := by
  fin_cases k <;> fin_cases j <;> simp_all

theorem rwInv_step {s s2 : St} (hinv : Inv s) (hstep : Step s s2) : Inv s2 := by
  obtain ⟨h1, h2, h3, h4, h5, h6, h7⟩ := hinv
  cases hstep with
  | rAcquire i hpc hw =>
      refine ⟨?_, ?_, ?_, h4, h5, h6, ?_⟩ <;> dsimp only
      · have hn := nReading_upd s.rd i ⟨RPc.rRead, (s.rd i).obs⟩
        rw [hpc] at hn
        simp [rIn] at hn
        omega
      · intro hwt
        rw [hw] at hwt
        exact absurd hwt (by simp)
      · exact h3
      · intro k v hkv
        by_cases hki : k = i
        · subst hki
          rw [updRd_same] at hkv
          exact h7 k v hkv
        · rw [updRd_other _ _ _ _ hki] at hkv
          exact h7 k v hkv
  | rObserve i hpc =>
      refine ⟨?_, h2, h3, h4, h5, h6, ?_⟩ <;> dsimp only
      · have hn := nReading_upd s.rd i ⟨RPc.rUnlock, some s.count⟩
        rw [hpc] at hn
        simp [rIn] at hn
        omega
      · intro k v hkv
        by_cases hki : k = i
        · subst hki
          rw [updRd_same] at hkv
          have hv : s.count = v := by simpa using hkv
          rcases wContrib_cases (s.wr 0).pc with hc0 | hc0 <;>
            rcases wContrib_cases (s.wr 1).pc with hc1 | hc1 <;>
              (rw [hc0, hc1] at h6; omega)
        · rw [updRd_other _ _ _ _ hki] at hkv
          exact h7 k v hkv
  | rRelease i hpc =>
      refine ⟨?_, ?_, h3, h4, h5, h6, ?_⟩ <;> dsimp only
      · have hn := nReading_upd s.rd i ⟨RPc.rDone, (s.rd i).obs⟩
        rw [hpc] at hn
        simp [rIn] at hn
        omega
      · intro hwt
        have := h2 hwt
        omega
      · intro k v hkv
        by_cases hki : k = i
        · subst hki
          rw [updRd_same] at hkv
          exact h7 k v hkv
        · rw [updRd_other _ _ _ _ hki] at hkv
          exact h7 k v hkv
  | wAcquire j hpc hw hr =>
      refine ⟨h1, ?_, ?_, ?_, ?_, ?_, h7⟩ <;> dsimp only
      · intro
        exact hr
      · intro k hk
        rfl
      · rintro ⟨ha, hb⟩
        rcases updWr_pair s.wr j ⟨WrPc.wLoad, (s.wr j).reg⟩ with
          ⟨e0, e1, ej⟩ | ⟨e0, e1, ej⟩
        · rw [e1] at hb
          have := h3 1 hb
          rw [hw] at this
          exact absurd this (by simp)
        · rw [e0] at ha
          have := h3 0 ha
          rw [hw] at this
          exact absurd this (by simp)
      · intro k hk
        by_cases hkj : k = j
        · subst hkj
          rw [updWr_same] at hk
          exact absurd hk (by simp)
        · rw [updWr_other _ _ _ _ hkj]
          exact h5 k (by rw [updWr_other _ _ _ _ hkj] at hk; exact hk)
      · have hs := updWr_pc_sum s.wr j ⟨WrPc.wLoad, (s.wr j).reg⟩
        rw [hpc] at hs
        have e1 : wContrib WrPc.wLock = 0 := rfl
        have e2 : wContrib WrPc.wLoad = 0 := rfl
        rw [e1, e2] at hs
        omega
  | wLoad j hpc =>
      refine ⟨h1, h2, ?_, ?_, ?_, ?_, h7⟩ <;> dsimp only
      · intro k hk
        by_cases hkj : k = j
        · subst hkj
          exact h3 k (by simp [wIn, hpc])
        · rw [updWr_other _ _ _ _ hkj] at hk
          exact h3 k hk
      · rintro ⟨ha, hb⟩
        rcases updWr_pair s.wr j ⟨WrPc.wStore, s.count⟩ with
          ⟨e0, e1, ej⟩ | ⟨e0, e1, ej⟩
        · rw [e1] at hb
          subst ej
          exact h4 ⟨by simp [wIn, hpc], hb⟩
        · rw [e0] at ha
          subst ej
          exact h4 ⟨ha, by simp [wIn, hpc]⟩
      · intro k hk
        by_cases hkj : k = j
        · subst hkj
          rw [updWr_same]
        · rw [updWr_other _ _ _ _ hkj] at hk ⊢
          exact h5 k hk
      · have hs := updWr_pc_sum s.wr j ⟨WrPc.wStore, s.count⟩
        rw [hpc] at hs
        have e1 : wContrib WrPc.wLoad = 0 := rfl
        have e2 : wContrib WrPc.wStore = 0 := rfl
        rw [e1, e2] at hs
        omega
  | wStore j hpc =>
      have hreg : (s.wr j).reg = s.count := h5 j hpc
      refine ⟨h1, h2, ?_, ?_, ?_, ?_, h7⟩ <;> dsimp only
      · intro k hk
        by_cases hkj : k = j
        · subst hkj
          exact h3 k (by simp [wIn, hpc])
        · rw [updWr_other _ _ _ _ hkj] at hk
          exact h3 k hk
      · rintro ⟨ha, hb⟩
        rcases updWr_pair s.wr j ⟨WrPc.wUnlock, (s.wr j).reg⟩ with
          ⟨e0, e1, ej⟩ | ⟨e0, e1, ej⟩
        · rw [e1] at hb
          subst ej
          exact h4 ⟨by simp [wIn, hpc], hb⟩
        · rw [e0] at ha
          subst ej
          exact h4 ⟨ha, by simp [wIn, hpc]⟩
      · intro k hk
        exfalso
        by_cases hkj : k = j
        · subst hkj
          rw [updWr_same] at hk
          exact absurd hk (by simp)
        · rw [updWr_other _ _ _ _ hkj] at hk
          rcases fin2_split k j hkj with ⟨ek, ej⟩ | ⟨ek, ej⟩
          · subst ek; subst ej
            exact h4 ⟨by simp [wIn, hk], by simp [wIn, hpc]⟩
          · subst ek; subst ej
            exact h4 ⟨by simp [wIn, hpc], by simp [wIn, hk]⟩
      · have hs := updWr_pc_sum s.wr j ⟨WrPc.wUnlock, (s.wr j).reg⟩
        rw [hpc] at hs
        have e1 : wContrib WrPc.wStore = 0 := rfl
        have e2 : wContrib WrPc.wUnlock = 3 := rfl
        rw [e1, e2] at hs
        omega
  | wRelease j hpc =>
      refine ⟨h1, ?_, ?_, ?_, ?_, ?_, h7⟩ <;> dsimp only
      · intro hwt
        exact absurd hwt (by simp)
      · intro k hk
        exfalso
        by_cases hkj : k = j
        · subst hkj
          rw [updWr_same] at hk
          exact absurd hk (by simp [wIn])
        · rw [updWr_other _ _ _ _ hkj] at hk
          rcases fin2_split k j hkj with ⟨ek, ej⟩ | ⟨ek, ej⟩
          · subst ek; subst ej
            exact h4 ⟨hk, by simp [wIn, hpc]⟩
          · subst ek; subst ej
            exact h4 ⟨by simp [wIn, hpc], hk⟩
      · rintro ⟨ha, hb⟩
        rcases updWr_pair s.wr j ⟨WrPc.wDone, (s.wr j).reg⟩ with
          ⟨e0, e1, ej⟩ | ⟨e0, e1, ej⟩
        · rw [e0] at ha
          exact absurd ha (by simp [wIn])
        · rw [e1] at hb
          exact absurd hb (by simp [wIn])
      · intro k hk
        exfalso
        by_cases hkj : k = j
        · subst hkj
          rw [updWr_same] at hk
          exact absurd hk (by simp)
        · rw [updWr_other _ _ _ _ hkj] at hk
          rcases fin2_split k j hkj with ⟨ek, ej⟩ | ⟨ek, ej⟩
          · subst ek; subst ej
            exact h4 ⟨by simp [wIn, hk], by simp [wIn, hpc]⟩
          · subst ek; subst ej
            exact h4 ⟨by simp [wIn, hpc], by simp [wIn, hk]⟩
      · have hs := updWr_pc_sum s.wr j ⟨WrPc.wDone, (s.wr j).reg⟩
        rw [hpc] at hs
        have e1 : wContrib WrPc.wUnlock = 3 := rfl
        have e2 : wContrib WrPc.wDone = 3 := rfl
        rw [e1, e2] at hs
        omega

theorem rwInv_reach {s : St} (h : Reach init s) : Inv s := by
  induction h with
  | refl => exact rwInv_init
  | tail _ hstep ih => exact rwInv_step ih hstep

/-- C4: in every reachable state of `rwlock.cpp`, an active writer
excludes all readers: `writer` implies `readers = 0`, and a positive
reader count implies no active writer. -/
theorem C4_reader_writer_exclusion (s : St) (h : Reach init s) :
    (s.writer = true → s.readers = 0) ∧ (0 < s.readers → s.writer = false) := by
  obtain ⟨-, h2, -, -, -, -, -⟩ := rwInv_reach h
  refine ⟨h2, ?_⟩
  intro hr
  cases hw : s.writer
  · rfl
  · have := h2 hw
    omega

/-- Witness for C4: a state with one shared holder is reachable, and
there the writer flag is off. -/
theorem C4_reader_writer_exclusion_witness :
    ∃ s : St, Reach init s ∧ 0 < s.readers ∧ s.writer = false := by
  have hstep : Step init ⟨init.count, init.readers + 1, init.writer,
      updRd init.rd 0 ⟨RPc.rRead, (init.rd 0).obs⟩, init.wr⟩ :=
    Step.rAcquire init 0 rfl rfl
  have hreach := Relation.ReflTransGen.head hstep Relation.ReflTransGen.refl
  refine ⟨_, hreach, by decide, ?_⟩
  exact (C4_reader_writer_exclusion _ hreach).2 (by decide)

/-- C9: every value a `read_value` thread observes while holding the
shared lock is one of 0, 3, 6, and when all six threads are finished
the counter is exactly 6 — each `count += 3` is atomic under the
exclusive lock. -/
theorem C9_observed_values (s : St) (h : Reach init s) :
    (∀ i : Fin 4, ∀ v, (s.rd i).obs = some v → v = 0 ∨ v = 3 ∨ v = 6) ∧
    ((∀ i : Fin 4, (s.rd i).pc = RPc.rDone) →
      (∀ j : Fin 2, (s.wr j).pc = WrPc.wDone) → s.count = 6) := by
  obtain ⟨-, -, -, -, -, h6, h7⟩ := rwInv_reach h
  refine ⟨h7, ?_⟩
  intro hrd hwd
  rw [hwd 0, hwd 1] at h6
  exact h6

/-- Witness for C9: a complete concrete execution — both writers run,
then the four readers — ends with all threads finished and counter 6. -/
theorem C9_observed_values_witness : ∃ s : St, Reach init s ∧ s.count = 6 := by
  have hs :=
    (Relation.ReflTransGen.head (Step.wAcquire init 0 rfl rfl rfl)
      (Relation.ReflTransGen.head (Step.wLoad _ 0 rfl)
      (Relation.ReflTransGen.head (Step.wStore _ 0 rfl)
      (Relation.ReflTransGen.head (Step.wRelease _ 0 rfl)
      (Relation.ReflTransGen.head (Step.wAcquire _ 1 rfl rfl rfl)
      (Relation.ReflTransGen.head (Step.wLoad _ 1 rfl)
      (Relation.ReflTransGen.head (Step.wStore _ 1 rfl)
      (Relation.ReflTransGen.head (Step.wRelease _ 1 rfl)
      (Relation.ReflTransGen.head (Step.rAcquire _ 0 rfl rfl)
      (Relation.ReflTransGen.head (Step.rObserve _ 0 rfl)
      (Relation.ReflTransGen.head (Step.rRelease _ 0 rfl)
      (Relation.ReflTransGen.head (Step.rAcquire _ 1 rfl rfl)
      (Relation.ReflTransGen.head (Step.rObserve _ 1 rfl)
      (Relation.ReflTransGen.head (Step.rRelease _ 1 rfl)
      (Relation.ReflTransGen.head (Step.rAcquire _ 2 rfl rfl)
      (Relation.ReflTransGen.head (Step.rObserve _ 2 rfl)
      (Relation.ReflTransGen.head (Step.rRelease _ 2 rfl)
      (Relation.ReflTransGen.head (Step.rAcquire _ 3 rfl rfl)
      (Relation.ReflTransGen.head (Step.rObserve _ 3 rfl)
      (Relation.ReflTransGen.head (Step.rRelease _ 3 rfl)
      Relation.ReflTransGen.refl))))))))))))))))))))
  exact ⟨_, hs, (C9_observed_values _ hs).2 (by decide) (by decide)⟩

end RwDemo

namespace SharedExcl

/-- Modelled from the spec: the SharedExclusiveLock state of §4.3 with
the writer-preference fairness policy.  `rwlock.cpp` only declares a
`std::shared_mutex`; its implementation is not part of the repository,
so the lock's state machine is taken from the specification:
`readers` counts shared holders, `writer` is the exclusive holder
flag, `waiting` counts queued writers. -/
structure St where
  readers : Nat
  writer : Bool
  waiting : Nat
deriving DecidableEq, Repr

/-- Modelled from the spec: transitions of the writer-preference
shared-exclusive lock.  A shared acquisition requires that no writer
is active and — writer-preference — that no writer is waiting; an
exclusive acquisition requires the lock to be entirely free and
dequeues one waiting writer. -/
inductive Step : St → St → Prop where
  | acquireShared (s : St) (hw : s.writer = false) (hq : s.waiting = 0) :
      Step s ⟨s.readers + 1, s.writer, s.waiting⟩
  | releaseShared (s : St) (hr : 0 < s.readers) :
      Step s ⟨s.readers - 1, s.writer, s.waiting⟩
  | writerArrive (s : St) :
      Step s ⟨s.readers, s.writer, s.waiting + 1⟩
  | acquireExclusive (s : St) (hq : 0 < s.waiting) (hr : s.readers = 0)
      (hw : s.writer = false) :
      Step s ⟨0, true, s.waiting - 1⟩
  | releaseExclusive (s : St) (hw : s.writer = true) :
      Step s ⟨s.readers, false, s.waiting⟩

/-- A step taken while some writer is waiting. -/
def StepW (a b : St) : Prop := Step a b ∧ 0 < a.waiting

/-- C6: writer-preference of the SharedExclusiveLock: a reader can
join only when no writer is waiting, so while a writer waits the
reader count never increases along any execution, and as soon as the
current readers have drained the waiting writer's acquisition is
enabled — the writer completes within the turnover of the readers
present when it arrived, rather than starving. -/
theorem C6_writer_preference :
    (∀ s s2 : St, Step s s2 → s.readers < s2.readers → s.waiting = 0) ∧
    (∀ s s2 : St, Relation.ReflTransGen StepW s s2 → s2.readers ≤ s.readers) ∧
    (∀ s : St, 0 < s.waiting → s.readers = 0 → s.writer = false →
      Step s ⟨0, true, s.waiting - 1⟩) := by
  refine ⟨?_, ?_, ?_⟩
  · intro s s2 hst hlt
    cases hst with
    | acquireShared hw hq => exact hq
    | releaseShared hr => dsimp at hlt; omega
    | writerArrive => dsimp at hlt; omega
    | acquireExclusive hq hr hw => dsimp at hlt; omega
    | releaseExclusive hw => dsimp at hlt; omega
  · intro s s2 h
    induction h with
    | refl => exact le_refl _
    | tail hab hbc ih =>
        obtain ⟨hstep, hq⟩ := hbc
        refine le_trans ?_ ih
        cases hstep with
        | acquireShared hw hq0 => omega
        | releaseShared hr => dsimp; omega
        | writerArrive => exact le_refl _
        | acquireExclusive hq2 hr hw => dsimp; omega
        | releaseExclusive hw => exact le_refl _
  · intro s hq hr hw
    exact Step.acquireExclusive s hq hr hw

/-- Witness for C6: with one waiting writer and two active readers,
the reader count only drains along waiting-writer steps, and once it
reaches zero the writer's acquisition step is enabled. -/
theorem C6_writer_preference_witness :
    (⟨0, false, 1⟩ : St).readers ≤ (⟨2, false, 1⟩ : St).readers ∧
    Step ⟨0, false, 1⟩ ⟨0, true, 0⟩ := by
  constructor
  · refine C6_writer_preference.2.1 _ _ ?_
    refine Relation.ReflTransGen.head ⟨Step.releaseShared _ (by decide), by decide⟩ ?_
    refine Relation.ReflTransGen.head ⟨Step.releaseShared _ (by decide), by decide⟩ ?_
    exact Relation.ReflTransGen.refl
  · exact C6_writer_preference.2.2 ⟨0, false, 1⟩ (by decide) rfl rfl

end SharedExcl

namespace MultiLock

/-- Outcome of one MultiLock attempt: either every requested resource
is held (in acquisition order), or the attempt failed and the listed
resources were released (in reverse acquisition order), leaving the
caller holding nothing. -/
inductive Outcome where
  | success (held : List Nat)
  | failure (released : List Nat)
deriving DecidableEq, Repr

/-- Modelled from the spec: the TryLock phase of the §4.4 algorithm.
`acc` holds the resources acquired so far, most recent first.  Each
remaining resource is TryLocked; on the first failure all of `acc` is
released, most recent first. -/
def tryPhase (avail : Nat → Bool) (acc : List Nat) : List Nat → Outcome
  | [] => Outcome.success acc.reverse
  | r :: rs =>
      if avail r then tryPhase avail (r :: acc) rs
      else Outcome.failure acc

/-- Modelled from the spec: one attempt of the §4.4 algorithm.
`Lock(R0)` is blocking, so the attempt is taken at the instant at
which `R0` has been acquired; the remaining resources are TryLocked. -/
def attempt (avail : Nat → Bool) : List Nat → Outcome
  | [] => Outcome.success []
  | r0 :: rs => tryPhase avail [r0] rs

/-- Modelled from the spec: the retry loop of §4.4 — on failure,
release everything, back off, and retry from `R0`.  `availSeq k` is
the availability seen by attempt number `k`; `fuel` truncates the
model of the unbounded loop. -/
def multiLock (availSeq : Nat → Nat → Bool) (k : Nat) (rs : List Nat) :
    Nat → Option (List Nat)
  | 0 => none
  | fuel + 1 =>
      match attempt (availSeq k) rs with
      | Outcome.success held => some held
      | Outcome.failure _ => multiLock availSeq (k + 1) rs fuel

/-- The sequence of held-resource sets a single attempt passes
through, one entry per successful acquisition. -/
def heldTrace (avail : Nat → Bool) (acc : List Nat) : List Nat → List (List Nat)
  | [] => []
  | r :: rs =>
      if avail r then (r :: acc) :: heldTrace avail (r :: acc) rs
      else []

/-- All intermediate held-resource sets of one attempt, starting with
the blocking acquisition of `R0`. -/
def attemptHeldStates (avail : Nat → Bool) : List Nat → List (List Nat)
  | [] => []
  | r0 :: rs => [r0] :: heldTrace avail [r0] rs

theorem tryPhase_success_eq (avail : Nat → Bool) :
    ∀ (rs acc : List Nat) (h : List Nat),
      tryPhase avail acc rs = Outcome.success h → h = acc.reverse ++ rs := by
  intro rs
  induction rs with
  | nil =>
      intro acc h he
      simp [tryPhase] at he
      simp [← he]
  | cons r rs ih =>
      intro acc h he
      by_cases ha : avail r
      · rw [tryPhase, if_pos ha] at he
        have := ih (r :: acc) h he
        simpa using this
      · rw [tryPhase, if_neg ha] at he
        exact absurd he (by simp)

theorem tryPhase_failure_eq (avail : Nat → Bool) :
    ∀ (rs acc rel : List Nat),
      tryPhase avail acc rs = Outcome.failure rel →
      ∃ rest, rel.reverse ++ rest = acc.reverse ++ rs := by
  intro rs
  induction rs with
  | nil =>
      intro acc rel he
      simp [tryPhase] at he
  | cons r rs ih =>
      intro acc rel he
      by_cases ha : avail r
      · rw [tryPhase, if_pos ha] at he
        obtain ⟨rest, hrest⟩ := ih (r :: acc) rel he
        refine ⟨rest, ?_⟩
        simpa using hrest
      · rw [tryPhase, if_neg ha] at he
        have : acc = rel := by simpa using he
        subst this
        exact ⟨r :: rs, rfl⟩

theorem attempt_success_eq (avail : Nat → Bool) (rs held : List Nat)
    (he : attempt avail rs = Outcome.success held) : held = rs := by
  cases rs with
  | nil => simpa [attempt] using he.symm
  | cons r0 rs =>
      rw [attempt] at he
      simpa using tryPhase_success_eq avail rs [r0] held he

/-- C7 (amended): the MultiLock attempt is all-or-nothing at
completion: a successful attempt holds exactly the full requested
list, a failed attempt has released everything it acquired — the
released list being the reverse of an acquired prefix — and the retry
loop returns either the full list or nothing. -/
theorem C7_all_or_nothing :
    (∀ (avail : Nat → Bool) (rs held : List Nat),
      attempt avail rs = Outcome.success held → held = rs) ∧
    (∀ (avail : Nat → Bool) (rs rel : List Nat),
      attempt avail rs = Outcome.failure rel →
      ∃ rest, rel.reverse ++ rest = rs) ∧
    (∀ (availSeq : Nat → Nat → Bool) (k : Nat) (rs : List Nat) (fuel : Nat)
      (held : List Nat), multiLock availSeq k rs fuel = some held → held = rs) := by
  refine ⟨?_, ?_, ?_⟩
  · intro avail rs held he
    exact attempt_success_eq avail rs held he
  · intro avail rs rel he
    cases rs with
    | nil => simp [attempt] at he
    | cons r0 rs =>
        rw [attempt] at he
        have := tryPhase_failure_eq avail rs [r0] rel he
        simpa using this
  · intro availSeq k rs fuel
    induction fuel generalizing k with
    | zero => intro held he; simp [multiLock] at he
    | succ fuel ih =>
        intro held he
        rw [multiLock] at he
        cases ha : attempt (availSeq k) rs with
        | success h2 =>
            rw [ha] at he
            have hh : h2 = held := by simpa using he
            subst hh
            exact attempt_success_eq (availSeq k) rs h2 ha
        | failure rel =>
            rw [ha] at he
            exact ih (k + 1) held he

/-- Witness for C7: a run whose first attempt fails (resource 1
unavailable), rolls back, and whose second attempt succeeds, returning
the full requested list. -/
theorem C7_all_or_nothing_witness :
    multiLock (fun k _ => decide (0 < k)) 0 [0, 1] 2 = some [0, 1] ∧
    ([0, 1] : List Nat) = [0, 1] := by
  refine ⟨by decide, ?_⟩
  exact C7_all_or_nothing.2.2 (fun k _ => decide (0 < k)) 0 [0, 1] 2 [0, 1] (by decide)

/-- Counterexample to C7 as literally stated: with two resources of
which only the first is available, the attempt passes through an
instant at which exactly one resource is held — neither all N nor
none. -/
theorem C7_at_every_instant_counterexample :
    ¬ (∀ held, held ∈ attemptHeldStates (fun r => decide (r = 0)) [0, 1] →
        held = [] ∨ held = [0, 1]) := by
  decide

end MultiLock
